import Mathlib

/-!
Verification of the ROUND vscode-extension repository.

The development shallowly embeds the repository's graph-editor code
(`src/editors/roundGraphEditor.ts`, `src/utils/pythonRunner.ts` alias
`src/unnamed/part_001`, `src/webview/ui.js`) and — for the execution core that
the repository only stubs (`universal_runner_ver7.py` is referenced but not
present) — models the Dependency Resolver / Execution Engine from the
specification.  JavaScript runtime values are embedded as `JValue`; machine
numbers that matter here are all small non-negative integers, embedded as
`Nat`/`Int`.
-/

set_option maxHeartbeats 1000000

namespace Round

/-- JavaScript runtime values exchanged over the webview message boundary and
the JSON persistence boundary.  Numbers are restricted to integers because none
of the verified code paths depends on fractional values. -/
inductive JValue where
  | jnull
  | jundefined
  | jbool (b : Bool)
  | jnum (n : Int)
  | jstr (s : String)
  | jarr (xs : List JValue)
  | jobj (fields : List (String × JValue))

/-- JavaScript truthiness of a value (`if (v)`). -/
def truthy : JValue → Bool
  | .jnull => false
  | .jundefined => false
  | .jbool b => b
  | .jnum n => n != 0
  | .jstr s => s != ""
  | .jarr _ => true
  | .jobj _ => true

/-- JavaScript property access `v[k]` / `v.k`: on an object the value stored
under the key (later duplicate keys overwrite earlier ones, hence the lookup on
the reversed field list), `undefined` otherwise.  The embedded code only
accesses properties of values it has already checked to be truthy, so the
throwing accesses on `null`/`undefined` are never reached. -/
def jsGet : JValue → String → JValue
  | .jobj fields, k => ((fields.reverse).lookup k).getD .jundefined
  | _, _ => .jundefined

/-- The `GraphData` interface of `roundGraphEditor.ts`: the normalized in-memory
graph representation, with `nodes` and `links` both arrays. -/
structure GraphData where
  nodes : List JValue
  links : List JValue

/-- `RoundGraphEditorProvider.normalizeGraphData` (roundGraphEditor.ts, lines
595-619): falsy input yields the empty graph; `nodes` is kept only when it is
an array; `links` is kept when an array, converted with `Object.values` when a
truthy non-array object (`typeof === "object"`; `null` is excluded by the
truthiness guard), and dropped otherwise. -/
def normalizeGraphData (data : JValue) : GraphData :=
  if truthy data then
    { nodes :=
        match jsGet data "nodes" with
        | .jarr xs => xs
        | _ => []
      links :=
        if truthy (jsGet data "links") then
          match jsGet data "links" with
          | .jarr xs => xs
          | .jobj fields => fields.map Prod.snd
          | _ => []
        else [] }
  else { nodes := [], links := [] }

/-- The JSON value written to the `.round` document by
`RoundGraphEditorProvider.updateTextDocument` (roundGraphEditor.ts, lines
548-590): `JSON.stringify` of the normalized `GraphData`, i.e. an object whose
`nodes` and `links` fields are both arrays.  `JSON.stringify`/`JSON.parse` are
external library functions that are mutually inverse on this fragment, so the
persistence round trip is modelled at the level of JSON values. -/
def serializeGraphData (g : GraphData) : JValue :=
  .jobj [("nodes", .jarr g.nodes), ("links", .jarr g.links)]

/-- JavaScript `Object.values`: the field values of an object, the elements of
an array, the one-character strings of a string, and `[]` on the remaining
primitives. -/
def objectValues : JValue → List JValue
  | .jobj fields => fields.map Prod.snd
  | .jarr xs => xs
  | .jstr s => s.data.map fun c => .jstr (String.mk [c])
  | _ => []

/-- The webview-side save path (`RoundGraph.setup` in ui.js, the
`processedData` construction around lines 1132-1160): `nodes` is
`rawData.nodes || []`, and `links` is kept when an array and otherwise replaced
by `Object.values(rawData.links)` (or `[]` when falsy), so the emitted `links`
is always an array. -/
def processGraphForSave (raw : JValue) : JValue :=
  .jobj
    [("nodes", if truthy (jsGet raw "nodes") then jsGet raw "nodes" else .jarr []),
     ("links",
       if truthy (jsGet raw "links") then
         match jsGet raw "links" with
         | .jarr xs => .jarr xs
         | other => .jarr (objectValues other)
       else .jarr [])]

/-- The `GraphLink` interface of `pythonRunner.ts` (src/unnamed/part_001): a
directed edge of the persisted graph, the in-memory form of the 6-tuple
`[id, sourceNodeId, sourceOutputIndex, targetNodeId, targetInputIndex, type]`. -/
structure GraphLink where
  id : String
  sourceNodeId : String
  sourceOutputIndex : Nat
  targetNodeId : String
  targetInputIndex : Nat
  type : String
deriving DecidableEq

/-- The `GraphNode` interface of `pythonRunner.ts` (src/unnamed/part_001). -/
structure GraphNode where
  id : String
  type : String
  inputs : List JValue
  outputs : List JValue
  title : String
  properties : JValue
  widgetParameter : JValue

/-- The mutable host state touched by `runUniversalRunner`: the open terminals,
the files written, and the commands sent to a terminal. -/
structure VSCodeState where
  dirname : String
  pythonPath : String
  terminals : List String
  writtenFiles : List (String × String)
  sentCommands : List (String × String)

/-- `runUniversalRunner` (pythonRunner.ts, src/unnamed/part_001 lines 29-74),
with `JSON.stringify` for the two arguments passed in as the external
collaborators `stringifyNodes`/`stringifyLinks`: it finds or creates the
"Python Runner" terminal, writes a temporary shell script invoking
`universal_runner_ver7.py` on the serialized nodes and links, sends the command
to the terminal, and then immediately resolves with the constant string
"Script execution started in terminal" — it never consults the execution for
per-node outputs, statuses or errors, and it never rejects. -/
def runUniversalRunner (stringifyNodes : List GraphNode → String)
    (stringifyLinks : List GraphLink → String)
    (nodes : List GraphNode) (links : List GraphLink)
    (st : VSCodeState) : VSCodeState × String :=
  let scriptPath := st.dirname ++ "/../webview/universal_runner_ver7.py"
  let tempScriptPath := st.dirname ++ "/temp_script.sh"
  let scriptContent := "#!/bin/bash\n" ++ st.pythonPath ++ " " ++ scriptPath ++ " '"
    ++ stringifyNodes nodes ++ "' '" ++ stringifyLinks links ++ "'\n"
  let st1 :=
    if st.terminals.contains "Python Runner" then st
    else { st with terminals := st.terminals ++ ["Python Runner"] }
  let st2 := { st1 with writtenFiles := st1.writtenFiles ++ [(tempScriptPath, scriptContent)] }
  let st3 := { st2 with sentCommands := st2.sentCommands ++ [("Python Runner", "bash " ++ tempScriptPath)] }
  (st3, "Script execution started in terminal")

/-- Strip a fixed character prefix, returning the remainder on success. -/
def stripPrefixChars : List Char → List Char → Option (List Char)
  | [], s => some s
  | _ :: _, [] => none
  | p :: ps, c :: cs => if c = p then stripPrefixChars ps cs else none

/-- Strip a fixed character suffix, returning the remainder on success. -/
def stripSuffixChars (suffix s : List Char) : Option (List Char) :=
  (stripPrefixChars suffix.reverse s.reverse).map List.reverse

/-- Decimal value of a nonempty all-digit character list (`parseInt(d, 10)` on
a `(\d+)` regex capture), `none` otherwise. -/
def digitsValAux : List Char → Nat → Option Nat
  | [], acc => some acc
  | c :: cs, acc =>
    if c.isDigit then digitsValAux cs (acc * 10 + (c.toNat - 48)) else none

/-- Value of a `(\d+)` capture: `none` when empty or containing a non-digit. -/
def digitsVal : List Char → Option Nat
  | [] => none
  | c :: cs => digitsValAux (c :: cs) 0

/-- The regex test and capture `/^round(\d+)\.py$/` with `parseInt(m[1], 10)`
used by `getNextFunctionNumber` (pythonRunner.ts lines 179-197) and
`promptNewFunction` (roundGraphEditor.ts lines 659-671): `some n` when the file
name is `round`, then a nonempty digit group of value `n`, then `.py`. -/
def roundNumberOf (file : String) : Option Nat :=
  match stripPrefixChars "round".data file.data with
  | none => none
  | some rest =>
    match stripSuffixChars ".py".data rest with
    | none => none
    | some mid => digitsVal mid

/-- The `numbers` array of `getNextFunctionNumber`: the parsed numeric values
of the directory entries matching `/^round(\d+)\.py$/`. -/
def parsedRoundNumbers (files : List String) : List Nat :=
  files.filterMap roundNumberOf

/-- The `while (numbers.includes(nextNumber)) nextNumber++` loop of
`getNextFunctionNumber`, with explicit fuel (the loop takes at most
`numbers.length` steps, so any fuel larger than that is enough). -/
def nextFreeAux (numbers : List Nat) : Nat → Nat → Nat
  | 0, n => n
  | fuel + 1, n => if n ∈ numbers then nextFreeAux numbers fuel (n + 1) else n

/-- `getNextFunctionNumber` (pythonRunner.ts, src/unnamed/part_001 lines
179-197): `1` when the folder does not exist, otherwise the first integer from
`1` upwards that is not among the numeric values parsed from the files matching
`/^round(\d+)\.py$/`. -/
def getNextFunctionNumber (folderExists : Bool) (files : List String) : Nat :=
  if folderExists then
    nextFreeAux (parsedRoundNumbers files) ((parsedRoundNumbers files).length + 1) 1
  else 1

/-- The file name `round<n>.py` for a positive integer `n` written in canonical
decimal, as in the C10 claim's reading of the specification. -/
def roundFileName (n : Nat) : String := "round" ++ Nat.repr n ++ ".py"

/-- The `ParsedFunction` entries of the signature extractor's JSON output
(roundGraphEditor.ts lines 80-90); only the function name matters to the
claims under study. -/
structure ParsedFunction where
  functionName : String
deriving DecidableEq

/-- The `ParseResult` shape of the signature extractor's JSON output. -/
structure ParseResult where
  functions : List ParsedFunction
deriving DecidableEq

/-- The externally observable effects of the `close` handler of
`addFunctionToGraph`: `addNode` messages posted to the webview, and error or
information popups. -/
inductive EditorEffect where
  | postAddNode (functionName : String) (filePath : String)
  | showError (message : String)
  | showInfo (message : String)
deriving DecidableEq

/-- The `process.on("close", ...)` handler of
`RoundGraphEditorProvider.addFunctionToGraph` (roundGraphEditor.ts lines
727-822).  `code` is the extractor's exit code, `stdoutResult` its collected
standard output and `parsed` the outcome of `JSON.parse` on it (`none` when the
output is unparseable).  The handler never touches the provider's `graphData`,
so the graph model is threaded through unchanged; on success it posts one
`addNode` message per well-formed function, on any failure it only shows an
error. -/
def addFunctionOnClose (graphData : GraphData) (filePath : String) (code : Int)
    (stdoutResult : String) (parsed : Option ParseResult) :
    GraphData × List EditorEffect :=
  if code = 0 ∧ stdoutResult ≠ "" then
    match parsed with
    | some pr =>
      if pr.functions.isEmpty then
        (graphData, [.showInfo "No functions found in the Python file."])
      else
        (graphData, pr.functions.filterMap fun f =>
          if f.functionName ≠ "" then some (.postAddNode f.functionName filePath) else none)
    | none => (graphData, [.showError "Error parsing Python script output"])
  else (graphData, [.showError "Failed to parse Python file"])

/-- C6: on the persistence boundary, serializing a `GraphData` to the
link-array JSON form (`updateTextDocument`) and normalizing the parsed value
back (`normalizeGraphData` on the `JSON.parse` of the document) yields the same
graph, node and link content and order included; in particular the order of
`links` is unchanged, as the serialized source is array-keyed. -/
theorem c6_round_trip (g : GraphData) :
    normalizeGraphData (serializeGraphData g) = g := rfl

/-- C8: `runUniversalRunner` always resolves with the constant string
"Script execution started in terminal" — for every pair of inputs, every host
state and every behaviour of the external `JSON.stringify` collaborators — and
the resolved value is the same as for the empty graph, so no per-node output,
status or error of the spawned execution is captured in it.  (The function body
contains no `reject` call and resolves unconditionally.) -/
theorem c8_runner_constant_result (stringifyNodes : List GraphNode → String)
    (stringifyLinks : List GraphLink → String)
    (nodes : List GraphNode) (links : List GraphLink) (st : VSCodeState) :
    (runUniversalRunner stringifyNodes stringifyLinks nodes links st).2 =
      "Script execution started in terminal"
    ∧ (runUniversalRunner stringifyNodes stringifyLinks nodes links st).2 =
      (runUniversalRunner (fun _ => "") (fun _ => "") [] [] st).2 :=
  ⟨rfl, rfl⟩

/-- C9: `normalizeGraphData` is total at the public message boundary: on every
input value — `null`/`undefined`, missing or non-array `nodes`, object-keyed
`links` included — it returns a `GraphData` whose `nodes` and `links` fields
are both (Lean-level, hence JavaScript-array) lists, without throwing: `nodes`
is either the input's own `nodes` array or `[]`, and `links` is the input's own
`links` array, or the values of its object-keyed `links` map, or `[]`. -/
theorem c9_normalize_total (d : JValue) :
    (jsGet d "nodes" = JValue.jarr (normalizeGraphData d).nodes
      ∨ (normalizeGraphData d).nodes = [])
    ∧ (jsGet d "links" = JValue.jarr (normalizeGraphData d).links
      ∨ (∃ fields, jsGet d "links" = JValue.jobj fields
          ∧ (normalizeGraphData d).links = fields.map Prod.snd)
      ∨ (normalizeGraphData d).links = []) := by
  unfold normalizeGraphData
  by_cases hd : truthy d
  · simp only [hd, if_true]
    constructor
    · cases hn : jsGet d "nodes" <;> simp [hn]
    · by_cases hl : truthy (jsGet d "links")
      · simp only [hl, if_true]
        cases hli : jsGet d "links" <;> simp [hli]
      · simp [hl]
  · simp [hd]

/-- C5: on the persistence boundary links are always an array of 6-tuples:
the consumer (`normalizeGraphData`) turns an object-keyed `links` map into the
array of the map's values before use, and both producers — the document writer
(`updateTextDocument`, via `serializeGraphData`) and the webview save path
(`processGraphForSave` in ui.js) — emit `links` in array form, the webview
likewise converting an object-keyed map into its values. -/
theorem c5_link_array_boundary :
    (∀ d fields, jsGet d "links" = JValue.jobj fields →
      (normalizeGraphData d).links = fields.map Prod.snd)
    ∧ (∀ g : GraphData, jsGet (serializeGraphData g) "links" = JValue.jarr g.links)
    ∧ (∀ raw fields, jsGet raw "links" = JValue.jobj fields →
      jsGet (processGraphForSave raw) "links" = JValue.jarr (fields.map Prod.snd)) := by
  refine ⟨fun d fields h => ?_, fun g => rfl, fun raw fields h => ?_⟩
  · cases d with
    | jobj fs => simp [normalizeGraphData, truthy, h]
    | jnull => simp [jsGet] at h
    | jundefined => simp [jsGet] at h
    | jbool b => simp [jsGet] at h
    | jnum n => simp [jsGet] at h
    | jstr s => simp [jsGet] at h
    | jarr xs => simp [jsGet] at h
  · have houter : ∀ a b : JValue,
        jsGet (JValue.jobj [("nodes", a), ("links", b)]) "links" = b := fun a b => rfl
    unfold processGraphForSave
    rw [houter, h]
    simp [truthy, objectValues]

/-- C5 witness: a concrete object-keyed `links` map is normalized to the array
of its values by the consumer. -/
theorem c5_witness :
    jsGet (JValue.jobj [("links", JValue.jobj [("1", JValue.jnum 7)])]) "links"
      = JValue.jobj [("1", JValue.jnum 7)]
    ∧ (normalizeGraphData
        (JValue.jobj [("links", JValue.jobj [("1", JValue.jnum 7)])])).links
      = [JValue.jnum 7] :=
  ⟨rfl, c5_link_array_boundary.1 _ [("1", JValue.jnum 7)] rfl⟩

/-- C7: whenever the signature extractor fails — non-zero exit code or
unparseable standard output — the `close` handler of `addFunctionToGraph`
leaves the graph model unchanged, posts no `addNode` message to the webview
(so no node, not even a partial one, is added), and surfaces an error. -/
theorem c7_extraction_failure (g : GraphData) (filePath : String) (code : Int)
    (stdoutResult : String) (parsed : Option ParseResult)
    (hfail : code ≠ 0 ∨ parsed = none) :
    (addFunctionOnClose g filePath code stdoutResult parsed).1 = g
    ∧ (∀ fn fp, EditorEffect.postAddNode fn fp ∉
        (addFunctionOnClose g filePath code stdoutResult parsed).2)
    ∧ ∃ m, EditorEffect.showError m ∈
        (addFunctionOnClose g filePath code stdoutResult parsed).2 := by
  unfold addFunctionOnClose
  by_cases hok : code = 0 ∧ stdoutResult ≠ ""
  · have hp : parsed = none := by
      rcases hfail with hc | hp
      · exact absurd hok.1 hc
      · exact hp
    subst hp
    rw [if_pos hok]
    simp
  · rw [if_neg hok]
    simp

/-- C7 witness: a failing extractor run (exit code 1) adds nothing and shows an
error. -/
theorem c7_witness :
    ((1 : Int) ≠ 0 ∨ (none : Option ParseResult) = none)
    ∧ ((addFunctionOnClose ⟨[], []⟩ "f.py" 1 "" none).1 = ⟨[], []⟩
      ∧ (∀ fn fp, EditorEffect.postAddNode fn fp ∉
          (addFunctionOnClose ⟨[], []⟩ "f.py" 1 "" none).2)
      ∧ ∃ m, EditorEffect.showError m ∈
          (addFunctionOnClose ⟨[], []⟩ "f.py" 1 "" none).2) :=
  ⟨Or.inl (by decide), c7_extraction_failure ⟨[], []⟩ "f.py" 1 "" none (Or.inl (by decide))⟩

theorem countP_le_of_imp (l : List Nat) (p q : Nat → Bool)
    (h : ∀ m, p m = true → q m = true) : l.countP p ≤ l.countP q := by
  induction l with
  | nil => simp
  | cons a tl ih =>
    rw [List.countP_cons, List.countP_cons]
    by_cases hp : p a = true
    · rw [if_pos hp, if_pos (h a hp)]
      omega
    · rw [if_neg hp]
      by_cases hq : q a = true
      · rw [if_pos hq]; omega
      · rw [if_neg hq]; omega

theorem countP_ge_succ_lt (l : List Nat) (n : Nat) (h : n ∈ l) :
    l.countP (fun m => decide (n + 1 ≤ m)) < l.countP (fun m => decide (n ≤ m)) := by
  induction l with
  | nil => cases h
  | cons a tl ih =>
    rw [List.countP_cons, List.countP_cons]
    have hmono := countP_le_of_imp tl (fun m => decide (n + 1 ≤ m)) (fun m => decide (n ≤ m))
      (fun m hm => by
        simp only [decide_eq_true_eq] at hm ⊢
        omega)
    rcases List.mem_cons.mp h with heq | hmem
    · have h1 : decide (n ≤ a) = true := by subst heq; simp
      have h2 : decide (n + 1 ≤ a) = false := by subst heq; simp
      simp only [h1, h2, if_true, Bool.false_eq_true, if_false]
      omega
    · have hs := ih hmem
      by_cases hc : n + 1 ≤ a
      · have hc2 : n ≤ a := by omega
        simp only [hc, hc2, decide_true_eq_true, decide_eq_true_eq, if_true]
        omega
      · by_cases hc2 : n ≤ a
        · simp only [decide_eq_true_eq, hc, hc2, if_true, if_false]
          omega
        · simp only [decide_eq_true_eq, hc, hc2, if_false]
          omega

theorem nextFreeAux_spec (numbers : List Nat) :
    ∀ fuel n, numbers.countP (fun m => decide (n ≤ m)) < fuel →
      nextFreeAux numbers fuel n ∉ numbers
      ∧ n ≤ nextFreeAux numbers fuel n
      ∧ ∀ k, n ≤ k → k < nextFreeAux numbers fuel n → k ∈ numbers := by
  intro fuel
  induction fuel with
  | zero => intro n h; omega
  | succ fuel ih =>
    intro n h
    unfold nextFreeAux
    by_cases hn : n ∈ numbers
    · have hlt := countP_ge_succ_lt numbers n hn
      have hrec := ih (n + 1) (by omega)
      rw [if_pos hn]
      refine ⟨hrec.1, by omega, fun k hk1 hk2 => ?_⟩
      rcases Nat.eq_or_lt_of_le hk1 with heq | hk
      · subst heq; exact hn
      · exact hrec.2.2 k (by omega) hk2
    · rw [if_neg hn]
      exact ⟨hn, Nat.le_refl n, fun k hk1 hk2 => by omega⟩

/-- C10 (amended): `getNextFunctionNumber` returns `1` when the folder does
not exist, and otherwise the smallest positive integer that is not among the
numeric values parsed (base 10, so leading-zero names such as `round01.py`
count as their numeric value) from the files matching `/^round(\d+)\.py$/`. -/
theorem c10_next_function_number (folderExists : Bool) (files : List String) :
    (folderExists = false → getNextFunctionNumber folderExists files = 1)
    ∧ (folderExists = true →
        1 ≤ getNextFunctionNumber folderExists files
        ∧ getNextFunctionNumber folderExists files ∉ parsedRoundNumbers files
        ∧ ∀ k, 1 ≤ k → k < getNextFunctionNumber folderExists files →
            k ∈ parsedRoundNumbers files) := by
  constructor
  · intro h; subst h; rfl
  · intro h; subst h
    have hfuel : (parsedRoundNumbers files).countP (fun m => decide (1 ≤ m))
        < (parsedRoundNumbers files).length + 1 :=
      Nat.lt_succ_of_le (List.countP_le_length _)
    have := nextFreeAux_spec (parsedRoundNumbers files)
      ((parsedRoundNumbers files).length + 1) 1 hfuel
    exact ⟨this.2.1, this.1, this.2.2⟩

/-- C10 witness: with `round1.py` and `round3.py` present the next number is
`2`, and a missing folder yields `1`. -/
theorem c10_next_function_number_witness :
    getNextFunctionNumber false [] = 1
    ∧ getNextFunctionNumber true ["round1.py", "round3.py"] ∉
        parsedRoundNumbers ["round1.py", "round3.py"]
    ∧ (∀ k, 1 ≤ k → k < getNextFunctionNumber true ["round1.py", "round3.py"] →
        k ∈ parsedRoundNumbers ["round1.py", "round3.py"]) :=
  ⟨(c10_next_function_number false []).1 rfl,
   ((c10_next_function_number true ["round1.py", "round3.py"]).2 rfl).2.1,
   ((c10_next_function_number true ["round1.py", "round3.py"]).2 rfl).2.2⟩

/-- C10 counterexample: with the folder containing exactly `round01.py`, the
integer `1` satisfies the claim's characterization of the result — no file
named `round1.py` exists and the minimality condition below `1` is vacuous —
yet `getNextFunctionNumber` returns `2`, because `parseInt` collapses the
leading-zero name `round01.py` to the numeric value `1`. -/
theorem c10_counterexample :
    roundFileName 1 ∉ (["round01.py"] : List String)
    ∧ (∀ k, 1 ≤ k → k < 1 → roundFileName k ∈ (["round01.py"] : List String))
    ∧ getNextFunctionNumber true ["round01.py"] = 2 := by
  refine ⟨by decide, fun k hk1 hk2 => by omega, by decide⟩

/-- Modelled from the spec: the Dependency Resolver of the execution core
(spec §4.2) is not present under src/ — `runUniversalRunner`
(src/unnamed/part_001, lines 29-74) merely spawns a terminal on
`universal_runner_ver7.py`, a file the snapshot does not contain.  In-degree
of `n` counting only the links whose source is still unprocessed (in `rem`):
Kahn's "decrement in-degree of the successors" is represented by recomputing
the in-degree over the remaining node set. -/
def inDegreeAmong (links : List GraphLink) (rem : List String) (n : String) : Nat :=
  links.countP fun l => l.targetNodeId == n && rem.contains l.sourceNodeId

/-- Modelled from the spec (§4.2): one Kahn round per fuel unit — extract the
set of all zero-in-degree nodes, in insertion order, as one stage, remove them
and repeat; when no zero-in-degree node remains the leftover nodes are returned
as the cyclic set (still in insertion order).  Fuel `rem.length` is always
enough, because every productive round removes at least one node. -/
def kahnStages : Nat → List String → List GraphLink → List (List String) × List String
  | 0, rem, _ => ([], rem)
  | fuel + 1, rem, links =>
    if (rem.filter fun n => inDegreeAmong links rem n == 0).isEmpty then ([], rem)
    else
      ((rem.filter fun n => inDegreeAmong links rem n == 0)
          :: (kahnStages fuel (rem.filter fun n => !(inDegreeAmong links rem n == 0)) links).1,
        (kahnStages fuel (rem.filter fun n => !(inDegreeAmong links rem n == 0)) links).2)

/-- Modelled from the spec (§4.2, §7): the resolver yields either the stage
partition or a `CyclicDependency` error naming the cyclic node set, with no
partial ordering attached to the error. -/
inductive ResolverResult where
  | stages (st : List (List String))
  | cyclicDependency (cyclic : List String)
deriving DecidableEq

/-- Modelled from the spec (§4.2): run Kahn's algorithm on the whole node list;
an empty leftover yields the stage partition, a nonempty one the
`CyclicDependency` error. -/
def resolve (nodes : List String) (links : List GraphLink) : ResolverResult :=
  if (kahnStages nodes.length nodes links).2.isEmpty then
    .stages (kahnStages nodes.length nodes links).1
  else .cyclicDependency (kahnStages nodes.length nodes links).2

/-- Direct dependency edge of the graph: some link runs from `p` to `n`. -/
def edge (links : List GraphLink) (p n : String) : Prop :=
  ∃ l ∈ links, l.sourceNodeId = p ∧ l.targetNodeId = n

/-- A graph is acyclic when no node transitively depends on itself. -/
def Acyclic (links : List GraphLink) : Prop :=
  ∀ n, ¬ Relation.TransGen (edge links) n n

/-- Every node of every stage has all of its predecessors among the nodes
listed before that stage. -/
def StagesSorted (links : List GraphLink) : List String → List (List String) → Prop
  | _, [] => True
  | before, s :: rest =>
    (∀ n ∈ s, ∀ l ∈ links, l.targetNodeId = n → l.sourceNodeId ∈ before)
    ∧ StagesSorted links (before ++ s) rest

theorem kahnStages_perm (links : List GraphLink) :
    ∀ fuel rem,
      List.Perm ((kahnStages fuel rem links).1.flatten ++ (kahnStages fuel rem links).2) rem := by
  intro fuel
  induction fuel with
  | zero => intro rem; simp [kahnStages]
  | succ fuel ih =>
    intro rem
    rw [kahnStages]
    by_cases he : (rem.filter fun n => inDegreeAmong links rem n == 0).isEmpty
    · simp [he]
    · rw [if_neg he]
      simp only [List.flatten_cons, List.append_assoc]
      refine List.Perm.trans (List.Perm.append_left _ (ih _)) ?_
      exact List.filter_append_perm _ rem

theorem length_filter_lt_of_mem_false (q : String → Bool) (rem : List String) (x : String)
    (hx : x ∈ rem) (hqx : q x = false) : (rem.filter q).length < rem.length := by
  induction rem with
  | nil => cases hx
  | cons a tl ih =>
    rcases List.mem_cons.mp hx with heq | hmem
    · subst heq
      rw [List.filter_cons_of_neg (by simp [hqx])]
      exact Nat.lt_succ_of_le (List.length_filter_le _ tl)
    · by_cases ha : q a = true
      · rw [List.filter_cons_of_pos ha]
        simpa using ih hmem
      · rw [List.filter_cons_of_neg (by simpa using ha)]
        have := ih hmem
        simp only [List.length_cons]
        omega

theorem kahnStages_cyclic_indegree (links : List GraphLink) :
    ∀ fuel rem, rem.length ≤ fuel →
      ∀ n ∈ (kahnStages fuel rem links).2,
        inDegreeAmong links (kahnStages fuel rem links).2 n ≠ 0 := by
  intro fuel
  induction fuel with
  | zero =>
    intro rem hlen n hn
    have hrem : rem = [] := List.length_eq_zero.mp (Nat.le_zero.mp hlen)
    subst hrem
    simp [kahnStages] at hn
  | succ fuel ih =>
    intro rem hlen n hn
    rw [kahnStages] at hn ⊢
    by_cases he : (rem.filter fun m => inDegreeAmong links rem m == 0).isEmpty
    · rw [if_pos he] at hn ⊢
      have hall := List.filter_eq_nil_iff.mp (List.isEmpty_iff.mp he)
      have hzero := hall n hn
      simpa using hzero
    · rw [if_neg he] at hn ⊢
      obtain ⟨x, hxmem⟩ := List.exists_mem_of_ne_nil _
        (fun hnil => he (List.isEmpty_iff.mpr hnil))
      have hx := List.mem_filter.mp hxmem
      have hlt := length_filter_lt_of_mem_false
        (fun n => !(inDegreeAmong links rem n == 0)) rem x hx.1 (by simp [hx.2])
      exact ih _ (by omega) n hn

theorem kahnStages_sublist (links : List GraphLink) :
    ∀ fuel rem, ((kahnStages fuel rem links).2).Sublist rem := by
  intro fuel
  induction fuel with
  | zero => intro rem; rw [kahnStages]
  | succ fuel ih =>
    intro rem
    rw [kahnStages]
    by_cases he : (rem.filter fun m => inDegreeAmong links rem m == 0).isEmpty
    · rw [if_pos he]
    · rw [if_neg he]
      exact List.Sublist.trans (ih _) (List.filter_sublist rem)

theorem kahnStages_cycle_subset (links : List GraphLink) (X : List String)
    (hX : ∀ n ∈ X, ∃ p ∈ X, edge links p n) :
    ∀ fuel rem, (∀ n ∈ X, n ∈ rem) → ∀ n ∈ X, n ∈ (kahnStages fuel rem links).2 := by
  intro fuel
  induction fuel with
  | zero => intro rem hsub n hn; rw [kahnStages]; exact hsub n hn
  | succ fuel ih =>
    intro rem hsub n hn
    rw [kahnStages]
    by_cases he : (rem.filter fun m => inDegreeAmong links rem m == 0).isEmpty
    · rw [if_pos he]; exact hsub n hn
    · rw [if_neg he]
      refine ih _ (fun m hm => ?_) n hn
      obtain ⟨p, hpX, l, hl, hsrc, htgt⟩ := hX m hm
      have hpos : 0 < inDegreeAmong links rem m := by
        rw [inDegreeAmong, List.countP_pos_iff]
        refine ⟨l, hl, ?_⟩
        have h1 : (l.targetNodeId == m) = true := by simpa using htgt
        have h2 : rem.contains l.sourceNodeId = true := by
          have : l.sourceNodeId ∈ rem := by rw [hsrc]; exact hsub p hpX
          simpa using this
        rw [h1, h2]
        rfl
      refine List.mem_filter.mpr ⟨hsub m hm, ?_⟩
      simpa using Nat.pos_iff_ne_zero.mp hpos

theorem kahnStages_sorted (links : List GraphLink) :
    ∀ fuel rem before,
      (∀ l ∈ links, l.sourceNodeId ∈ rem ∨ l.sourceNodeId ∈ before) →
      StagesSorted links before (kahnStages fuel rem links).1 := by
  intro fuel
  induction fuel with
  | zero => intro rem before hsrc; rw [kahnStages]; trivial
  | succ fuel ih =>
    intro rem before hsrc
    rw [kahnStages]
    by_cases he : (rem.filter fun m => inDegreeAmong links rem m == 0).isEmpty
    · rw [if_pos he]; trivial
    · rw [if_neg he]
      refine ⟨fun n hn l hl htgt => ?_, ?_⟩
      · have hn2 := List.mem_filter.mp hn
        rcases hsrc l hl with hinrem | hinbefore
        · exfalso
          have hzero : inDegreeAmong links rem n = 0 := by simpa using hn2.2
          have hpos : 0 < inDegreeAmong links rem n := by
            rw [inDegreeAmong, List.countP_pos_iff]
            refine ⟨l, hl, ?_⟩
            have h1 : (l.targetNodeId == n) = true := by simpa using htgt
            have h2 : rem.contains l.sourceNodeId = true := by simpa using hinrem
            rw [h1, h2]
            rfl
          omega
        · exact hinbefore
      · refine ih _ _ (fun l hl => ?_)
        rcases hsrc l hl with hinrem | hinbefore
        · by_cases hz : inDegreeAmong links rem l.sourceNodeId == 0
          · right
            refine List.mem_append.mpr (Or.inr (List.mem_filter.mpr ⟨hinrem, hz⟩))
          · left
            refine List.mem_filter.mpr ⟨hinrem, ?_⟩
            simpa using hz
        · right
          exact List.mem_append.mpr (Or.inl hinbefore)

theorem stagesSorted_get (links : List GraphLink) :
    ∀ (st : List (List String)) (before : List String), StagesSorted links before st →
      ∀ l ∈ links, ∀ j, ∀ hj : j < st.length, l.targetNodeId ∈ st.get ⟨j, hj⟩ →
        l.sourceNodeId ∈ before
        ∨ ∃ i, ∃ hi : i < st.length, i < j ∧ l.sourceNodeId ∈ st.get ⟨i, hi⟩ := by
  intro st
  induction st with
  | nil =>
    intro before hsorted l hl j hj htgt
    simp at hj
  | cons s rest ih =>
    intro before hsorted l hl j hj htgt
    match j with
    | 0 => exact Or.inl (hsorted.1 _ htgt l hl rfl)
    | j + 1 =>
      have hj2 : j < rest.length := by simpa using hj
      have hrec := ih (before ++ s) hsorted.2 l hl j hj2 htgt
      rcases hrec with hmem | ⟨i, hi, hij, hmem⟩
      · rcases List.mem_append.mp hmem with hb | hs
        · exact Or.inl hb
        · refine Or.inr ⟨0, by simp, by omega, hs⟩
      · refine Or.inr ⟨i + 1, by simpa using Nat.succ_lt_succ hi, by omega, ?_⟩
        simpa using hmem

theorem transGen_iterate_chain {α : Type} (r : α → α → Prop) (g : α → α) (x0 : α)
    (hg : ∀ x, r (g x) x) :
    ∀ d k : Nat, Relation.TransGen r (g^[k + d + 1] x0) (g^[k] x0) := by
  intro d
  induction d with
  | zero =>
    intro k
    have hit : g^[k + 1] x0 = g (g^[k] x0) := Function.iterate_succ_apply' g k x0
    show Relation.TransGen r (g^[k + 1] x0) (g^[k] x0)
    rw [hit]
    exact Relation.TransGen.single (hg _)
  | succ d ih =>
    intro k
    have heq : k + (d + 1) + 1 = (k + d + 1) + 1 := by omega
    rw [heq]
    have hit : g^[(k + d + 1) + 1] x0 = g (g^[k + d + 1] x0) :=
      Function.iterate_succ_apply' g (k + d + 1) x0
    rw [hit]
    exact Relation.TransGen.head (hg _) (ih k)

theorem cycle_of_all_pos (links : List GraphLink) (c : List String) (hne : c ≠ [])
    (hpos : ∀ n ∈ c, ∃ p ∈ c, edge links p n) :
    ∃ n, Relation.TransGen (edge links) n n := by
  obtain ⟨x0, hx0⟩ := List.exists_mem_of_ne_nil c hne
  choose pf hpfmem hpfedge using hpos
  haveI : Fintype {x // x ∈ c} := List.Subtype.fintype c
  let g : {x // x ∈ c} → {x // x ∈ c} := fun x => ⟨pf x.1 x.2, hpfmem x.1 x.2⟩
  have hg : ∀ x : {x // x ∈ c}, edge links (g x).1 x.1 := fun x => hpfedge x.1 x.2
  have key : ∀ i j : Nat, i < j →
      g^[i] ⟨x0, hx0⟩ = g^[j] ⟨x0, hx0⟩ → ∃ n, Relation.TransGen (edge links) n n := by
    intro i j hlt he2
    have hd : j = i + (j - i - 1) + 1 := by omega
    have hchain := transGen_iterate_chain (fun x y : {x // x ∈ c} => edge links x.1 y.1)
      g ⟨x0, hx0⟩ hg (j - i - 1) i
    rw [← hd] at hchain
    rw [← he2] at hchain
    refine ⟨(g^[i] (⟨x0, hx0⟩ : {x // x ∈ c})).1, ?_⟩
    exact Relation.TransGen.lift Subtype.val (fun a b h => h) hchain
  obtain ⟨i, j, hij, heq⟩ :=
    Finite.exists_ne_map_eq_of_infinite (fun k : Nat => g^[k] (⟨x0, hx0⟩ : {x // x ∈ c}))
  rcases Nat.lt_or_ge i j with hlt | hge
  · exact key i j hlt heq
  · exact key j i (by omega) heq.symm

theorem transGen_edge_members (links : List GraphLink) (a b : String)
    (h : Relation.TransGen (edge links) a b) :
    ∃ X : List String, b ∈ X
      ∧ (∀ n ∈ X, ∃ l ∈ links, l.targetNodeId = n)
      ∧ ∀ n ∈ X, ∃ p, edge links p n ∧ (p ∈ X ∨ p = a) := by
  induction h with
  | single hrel =>
    rename_i b2
    obtain ⟨l, hl, hsrc, htgt⟩ := hrel
    refine ⟨[b2], List.mem_singleton.mpr rfl, ?_, ?_⟩
    · intro n hn
      rw [List.mem_singleton] at hn
      subst hn
      exact ⟨l, hl, htgt⟩
    · intro n hn
      rw [List.mem_singleton] at hn
      subst hn
      exact ⟨a, ⟨l, hl, hsrc, htgt⟩, Or.inr rfl⟩
  | tail hab hrel ih =>
    rename_i bmid btail
    obtain ⟨X, hbX, htgts, hpreds⟩ := ih
    obtain ⟨l, hl, hsrc, htgt⟩ := hrel
    refine ⟨btail :: X, List.mem_cons_self btail X, ?_, ?_⟩
    · intro n hn
      rcases List.mem_cons.mp hn with heq | hmem
      · subst heq
        exact ⟨l, hl, htgt⟩
      · exact htgts n hmem
    · intro n hn
      rcases List.mem_cons.mp hn with heq | hmem
      · rw [heq]
        exact ⟨bmid, ⟨l, hl, hsrc, htgt⟩, Or.inl (List.mem_cons_of_mem btail hbX)⟩
      · obtain ⟨p, hpe, hpc⟩ := hpreds n hmem
        rcases hpc with hpX | hpa
        · exact ⟨p, hpe, Or.inl (List.mem_cons_of_mem btail hpX)⟩
        · exact ⟨p, hpe, Or.inr hpa⟩

theorem acyclic_of_rank (links : List GraphLink) (rank : String → Nat)
    (h : ∀ l ∈ links, rank l.sourceNodeId < rank l.targetNodeId) : Acyclic links := by
  have key : ∀ a b, Relation.TransGen (edge links) a b → rank a < rank b := by
    intro a b htc
    induction htc with
    | single hrel =>
      obtain ⟨l, hl, hsrc, htgt⟩ := hrel
      have h2 := h l hl
      rw [hsrc, htgt] at h2
      exact h2
    | tail hab hrel ih =>
      obtain ⟨l, hl, hsrc, htgt⟩ := hrel
      have h2 := h l hl
      rw [hsrc, htgt] at h2
      omega
  intro n hcontra
  have := key n n hcontra
  omega

/-- C1: for every acyclic validated graph, the Dependency Resolver (Kahn's
algorithm, modelled from the spec because `universal_runner_ver7.py` is not in
the snapshot) produces a stage partition covering every node exactly once
(permutation of the node list plus no duplicates) in which every node's
predecessors lie in strictly earlier stages. -/
theorem c1_resolver_acyclic_partition (nodes : List String) (links : List GraphLink)
    (hnd : nodes.Nodup)
    (hval : ∀ l ∈ links, l.sourceNodeId ∈ nodes ∧ l.targetNodeId ∈ nodes)
    (hacyclic : Acyclic links) :
    ∃ st, resolve nodes links = ResolverResult.stages st
      ∧ List.Perm st.flatten nodes
      ∧ st.flatten.Nodup
      ∧ ∀ l ∈ links, ∀ j, ∀ hj : j < st.length, l.targetNodeId ∈ st.get ⟨j, hj⟩ →
          ∃ i, ∃ hi : i < st.length, i < j ∧ l.sourceNodeId ∈ st.get ⟨i, hi⟩ := by
  have hcyc_empty : (kahnStages nodes.length nodes links).2 = [] := by
    by_contra hne
    have hindeg := kahnStages_cyclic_indegree links nodes.length nodes (Nat.le_refl _)
    have hpos : ∀ n ∈ (kahnStages nodes.length nodes links).2,
        ∃ p ∈ (kahnStages nodes.length nodes links).2, edge links p n := by
      intro n hn
      have hpos2 : 0 < inDegreeAmong links (kahnStages nodes.length nodes links).2 n :=
        Nat.pos_of_ne_zero (hindeg n hn)
      rw [inDegreeAmong, List.countP_pos_iff] at hpos2
      obtain ⟨l, hl, hpred⟩ := hpos2
      have hsplit := Bool.and_eq_true_iff.mp hpred
      have h1 : l.targetNodeId = n := by simpa using hsplit.1
      have h2 : l.sourceNodeId ∈ (kahnStages nodes.length nodes links).2 := by
        simpa using hsplit.2
      exact ⟨l.sourceNodeId, h2, l, hl, rfl, h1⟩
    obtain ⟨n, hcycle⟩ := cycle_of_all_pos links _ hne hpos
    exact hacyclic n hcycle
  have hperm := kahnStages_perm links nodes.length nodes
  rw [hcyc_empty, List.append_nil] at hperm
  refine ⟨(kahnStages nodes.length nodes links).1, ?_, hperm, hperm.symm.nodup hnd, ?_⟩
  · rw [resolve, if_pos (by rw [hcyc_empty]; rfl)]
  · intro l hl j hj htgt
    have hsorted := kahnStages_sorted links nodes.length nodes []
      (fun l2 hl2 => Or.inl (hval l2 hl2).1)
    have hget := stagesSorted_get links _ [] hsorted l hl j hj htgt
    rcases hget with hmem | hex
    · cases hmem
    · exact hex

/-- C1 witness: the two-node acyclic graph A → B is resolved into a partition
covering both nodes. -/
theorem c1_witness :
    Acyclic [(⟨"l1", "A", 0, "B", 0, ""⟩ : GraphLink)]
    ∧ ∃ st,
        resolve ["A", "B"] [(⟨"l1", "A", 0, "B", 0, ""⟩ : GraphLink)]
          = ResolverResult.stages st
        ∧ List.Perm st.flatten ["A", "B"] := by
  have hacy : Acyclic [(⟨"l1", "A", 0, "B", 0, ""⟩ : GraphLink)] :=
    acyclic_of_rank _ (fun s => if s = "A" then 0 else 1) (by decide)
  obtain ⟨st, h1, h2, _⟩ := c1_resolver_acyclic_partition ["A", "B"]
    [(⟨"l1", "A", 0, "B", 0, ""⟩ : GraphLink)] (by decide) (by decide) hacy
  exact ⟨hacy, st, h1, h2⟩

/-- C2: for every validated graph containing a cycle, the resolver (modelled
from the spec) returns a `CyclicDependency` error and no partition; the
reported set is nonempty, is listed in insertion order (a sublist of the node
list), consists of the nodes left with positive in-degree when Kahn's
algorithm has exhausted the zero-in-degree nodes, and contains every node that
lies on any cycle. -/
theorem c2_resolver_cyclic_error (nodes : List String) (links : List GraphLink)
    (hval : ∀ l ∈ links, l.sourceNodeId ∈ nodes ∧ l.targetNodeId ∈ nodes)
    (hcyc : ∃ a, Relation.TransGen (edge links) a a) :
    ∃ cyc, resolve nodes links = ResolverResult.cyclicDependency cyc
      ∧ cyc ≠ []
      ∧ cyc.Sublist nodes
      ∧ (∀ n ∈ cyc, inDegreeAmong links cyc n ≠ 0)
      ∧ ∀ a, Relation.TransGen (edge links) a a → a ∈ cyc := by
  have hsubcyc : ∀ a, Relation.TransGen (edge links) a a →
      a ∈ (kahnStages nodes.length nodes links).2 := by
    intro a ha
    obtain ⟨X, haX, htgts, hpreds⟩ := transGen_edge_members links a a ha
    have hX : ∀ n ∈ X, ∃ p ∈ X, edge links p n := by
      intro n hn
      obtain ⟨p, hpe, hpc⟩ := hpreds n hn
      rcases hpc with hpX | hpa
      · exact ⟨p, hpX, hpe⟩
      · rw [hpa] at hpe
        exact ⟨a, haX, hpe⟩
    have hXnodes : ∀ n ∈ X, n ∈ nodes := by
      intro n hn
      obtain ⟨l, hl, htgt⟩ := htgts n hn
      have h2 := (hval l hl).2
      rw [htgt] at h2
      exact h2
    exact kahnStages_cycle_subset links X hX nodes.length nodes hXnodes a haX
  obtain ⟨a0, ha0⟩ := hcyc
  have hne : (kahnStages nodes.length nodes links).2 ≠ [] := by
    intro hnil
    have hmem := hsubcyc a0 ha0
    rw [hnil] at hmem
    cases hmem
  refine ⟨(kahnStages nodes.length nodes links).2, ?_, hne, ?_, ?_, hsubcyc⟩
  · rw [resolve, if_neg (fun hemp => hne (List.isEmpty_iff.mp hemp))]
  · exact kahnStages_sublist links nodes.length nodes
  · exact fun n hn => kahnStages_cyclic_indegree links nodes.length nodes (Nat.le_refl _) n hn

/-- C2 witness: the two-node cycle A → B → A is reported as a nonempty
`CyclicDependency` error containing both nodes, with no partition returned. -/
theorem c2_witness :
    (∃ a, Relation.TransGen
        (edge [(⟨"l1", "A", 0, "B", 0, ""⟩ : GraphLink), (⟨"l2", "B", 0, "A", 0, ""⟩ : GraphLink)])
        a a)
    ∧ ∃ cyc,
        resolve ["A", "B"]
            [(⟨"l1", "A", 0, "B", 0, ""⟩ : GraphLink), (⟨"l2", "B", 0, "A", 0, ""⟩ : GraphLink)]
          = ResolverResult.cyclicDependency cyc
        ∧ cyc ≠ [] ∧ "A" ∈ cyc := by
  have hAB : edge [(⟨"l1", "A", 0, "B", 0, ""⟩ : GraphLink), (⟨"l2", "B", 0, "A", 0, ""⟩ : GraphLink)]
      "A" "B" := ⟨⟨"l1", "A", 0, "B", 0, ""⟩, by simp, rfl, rfl⟩
  have hBA : edge [(⟨"l1", "A", 0, "B", 0, ""⟩ : GraphLink), (⟨"l2", "B", 0, "A", 0, ""⟩ : GraphLink)]
      "B" "A" := ⟨⟨"l2", "B", 0, "A", 0, ""⟩, by simp, rfl, rfl⟩
  have hc : Relation.TransGen
      (edge [(⟨"l1", "A", 0, "B", 0, ""⟩ : GraphLink), (⟨"l2", "B", 0, "A", 0, ""⟩ : GraphLink)])
      "A" "A" := Relation.TransGen.head hAB (Relation.TransGen.single hBA)
  obtain ⟨cyc, h1, h2, _, _, hall⟩ := c2_resolver_cyclic_error ["A", "B"]
    [(⟨"l1", "A", 0, "B", 0, ""⟩ : GraphLink), (⟨"l2", "B", 0, "A", 0, ""⟩ : GraphLink)]
    (by decide) ⟨"A", hc⟩
  exact ⟨⟨"A", hc⟩, cyc, h1, h2, hall "A" hc⟩

/-- Modelled from the spec (§3): per-node execution status. -/
inductive NodeStatus where
  | pending
  | running
  | succeeded
  | failed
  | skipped
deriving DecidableEq

/-- Whether a recorded upstream status blocks a dependant: `Failed` or
`Skipped` does, anything else (including an absent record) does not. -/
def blockingStatus : Option NodeStatus → Bool
  | some .failed => true
  | some .skipped => true
  | _ => false

/-- Modelled from the spec (§4.4): a node is blocked when some incoming link's
source is already recorded `Failed` or `Skipped`. -/
def depBlocked (links : List GraphLink) (report : List (String × NodeStatus))
    (n : String) : Bool :=
  links.any fun l =>
    l.targetNodeId == n && blockingStatus (report.lookup l.sourceNodeId)

/-- Modelled from the spec (§4.4): terminal status of one dispatch — `Skipped`
without invoking the executor when an upstream dependency failed or was
skipped, otherwise the external executor's outcome (`true` = `Succeeded`,
`false` = `Failed`). -/
def execNode (links : List GraphLink) (report : List (String × NodeStatus))
    (ex : String → Bool) (n : String) : NodeStatus :=
  if depBlocked links report n then .skipped
  else if ex n then .succeeded else .failed

/-- Modelled from the spec (§4.4, §5): one stage — its members are mutually
independent, are dispatched against the statuses recorded before the stage
started, and their results are appended to the report. -/
def runStage (links : List GraphLink) (ex : String → Bool)
    (report : List (String × NodeStatus)) (stage : List String) :
    List (String × NodeStatus) :=
  report ++ stage.map fun n => (n, execNode links report ex n)

/-- Modelled from the spec (§4.4): the Execution Engine runs the plan's stages
in order to exhaustion, never stopping early because of node failures. -/
def runEngine (stages : List (List String)) (links : List GraphLink)
    (ex : String → Bool) : List (String × NodeStatus) :=
  stages.foldl (runStage links ex) []

/-- Modelled from the spec (§3, §4.5): the Run Report's overall status. -/
inductive OverallStatus where
  | completed
  | completedWithErrors
  | aborted
deriving DecidableEq

/-- Modelled from the spec (§4.5): `Aborted` exactly on external cancellation
before plan exhaustion, otherwise `Completed` when every recorded node
succeeded and `CompletedWithErrors` otherwise. -/
def overallStatus (cancelled : Bool) (report : List (String × NodeStatus)) :
    OverallStatus :=
  if cancelled then .aborted
  else if report.all fun p => p.2 == NodeStatus.succeeded then .completed
  else .completedWithErrors

/-- The node ids recorded in a report, in recording order. -/
def reportKeys (report : List (String × NodeStatus)) : List String :=
  report.map Prod.fst

theorem lookup_append_some (l1 l2 : List (String × NodeStatus)) (a : String)
    (b : NodeStatus) (h : List.lookup a l1 = some b) :
    List.lookup a (l1 ++ l2) = some b := by
  induction l1 with
  | nil => simp [List.lookup] at h
  | cons kv tl ih =>
    obtain ⟨k, v⟩ := kv
    by_cases hk : (a == k) = true
    · simp only [List.lookup, hk] at h ⊢
      exact h
    · rw [Bool.not_eq_true] at hk
      simp only [List.lookup, hk] at h ⊢
      exact ih h

theorem lookup_append_none (l1 l2 : List (String × NodeStatus)) (a : String)
    (h : List.lookup a l1 = none) :
    List.lookup a (l1 ++ l2) = List.lookup a l2 := by
  induction l1 with
  | nil => rfl
  | cons kv tl ih =>
    obtain ⟨k, v⟩ := kv
    by_cases hk : (a == k) = true
    · simp only [List.lookup, hk] at h
      exact Option.noConfusion h
    · rw [Bool.not_eq_true] at hk
      simp only [List.lookup, hk] at h ⊢
      exact ih h

theorem mem_keys_of_lookup (l : List (String × NodeStatus)) (a : String)
    (b : NodeStatus) (h : List.lookup a l = some b) : a ∈ reportKeys l := by
  induction l with
  | nil => simp [List.lookup] at h
  | cons kv tl ih =>
    obtain ⟨k, v⟩ := kv
    by_cases hk : (a == k) = true
    · have : a = k := by simpa using hk
      simp [reportKeys, this]
    · rw [Bool.not_eq_true] at hk
      simp only [List.lookup, hk] at h
      simp [reportKeys]
      right
      simpa [reportKeys] using ih h

theorem exists_lookup_of_mem_keys (l : List (String × NodeStatus)) (a : String)
    (h : a ∈ reportKeys l) : ∃ b, List.lookup a l = some b := by
  induction l with
  | nil => simp [reportKeys] at h
  | cons kv tl ih =>
    obtain ⟨k, v⟩ := kv
    by_cases hk : (a == k) = true
    · exact ⟨v, by simp only [List.lookup, hk]⟩
    · rw [Bool.not_eq_true] at hk
      have hka : a ≠ k := by simpa using hk
      have h2 : a ∈ reportKeys tl := by
        simp only [reportKeys, List.map_cons] at h
        rcases List.mem_cons.mp h with heq | hmem
        · exact absurd heq hka
        · exact hmem
      obtain ⟨b, hb⟩ := ih h2
      exact ⟨b, by simp only [List.lookup, hk]; exact hb⟩

theorem lookup_none_of_not_mem_keys (l : List (String × NodeStatus)) (a : String)
    (h : a ∉ reportKeys l) : List.lookup a l = none := by
  by_cases hl : List.lookup a l = none
  · exact hl
  · obtain ⟨b, hb⟩ := Option.ne_none_iff_exists.mp hl
    exact absurd (mem_keys_of_lookup l a b hb.symm) h

theorem mem_of_lookup_eq_some (l : List (String × NodeStatus)) (a : String)
    (b : NodeStatus) (h : List.lookup a l = some b) : (a, b) ∈ l := by
  induction l with
  | nil => simp [List.lookup] at h
  | cons kv tl ih =>
    obtain ⟨k, v⟩ := kv
    by_cases hk : (a == k) = true
    · have hka : a = k := by simpa using hk
      simp only [List.lookup, hk] at h
      subst hka
      rw [Option.some.injEq] at h
      subst h
      exact List.mem_cons_self _ _
    · rw [Bool.not_eq_true] at hk
      simp only [List.lookup, hk] at h
      exact List.mem_cons_of_mem _ (ih h)

theorem lookup_of_mem_nodup (l : List (String × NodeStatus)) (a : String)
    (b : NodeStatus) (hnd : (reportKeys l).Nodup) (h : (a, b) ∈ l) :
    List.lookup a l = some b := by
  induction l with
  | nil => cases h
  | cons kv tl ih =>
    obtain ⟨k, v⟩ := kv
    have hnd2 : (reportKeys tl).Nodup := (List.nodup_cons.mp hnd).2
    rcases List.mem_cons.mp h with heq | hmem
    · rw [Prod.mk.injEq] at heq
      obtain ⟨h1, h2⟩ := heq
      subst h1
      subst h2
      simp [List.lookup]
    · by_cases hk : (a == k) = true
      · exfalso
        have hka : a = k := by simpa using hk
        subst hka
        have : a ∈ reportKeys tl := by
          simp only [reportKeys]
          exact List.mem_map_of_mem Prod.fst hmem
        exact (List.nodup_cons.mp hnd).1 this
      · rw [Bool.not_eq_true] at hk
        simp only [List.lookup, hk]
        exact ih hnd2 hmem

theorem lookup_map_self (stage : List String) (f : String → NodeStatus)
    (n : String) (h : n ∈ stage) :
    List.lookup n (stage.map fun m => (m, f m)) = some (f n) := by
  induction stage with
  | nil => cases h
  | cons m tl ih =>
    by_cases hk : (n == m) = true
    · have hmn : n = m := by simpa using hk
      subst hmn
      simp only [List.map_cons, List.lookup, hk]
    · rw [Bool.not_eq_true] at hk
      have hmn : n ≠ m := by simpa using hk
      simp only [List.map_cons, List.lookup, hk]
      rcases List.mem_cons.mp h with heq | hmem
      · exact absurd heq hmn
      · exact ih hmem

theorem blockingStatus_iff (o : Option NodeStatus) :
    blockingStatus o = true ↔ o = some .failed ∨ o = some .skipped := by
  rcases o with _ | s
  · simp [blockingStatus]
  · cases s <;> simp [blockingStatus]

theorem depBlocked_iff (links : List GraphLink) (report : List (String × NodeStatus))
    (n : String) :
    depBlocked links report n = true ↔
      ∃ l ∈ links, l.targetNodeId = n
        ∧ (List.lookup l.sourceNodeId report = some NodeStatus.failed
          ∨ List.lookup l.sourceNodeId report = some NodeStatus.skipped) := by
  rw [depBlocked, List.any_eq_true]
  constructor
  · rintro ⟨l, hl, hb⟩
    have hsplit := Bool.and_eq_true_iff.mp hb
    have h1 : l.targetNodeId = n := by simpa using hsplit.1
    exact ⟨l, hl, h1, (blockingStatus_iff _).mp hsplit.2⟩
  · rintro ⟨l, hl, htgt, hbad⟩
    refine ⟨l, hl, Bool.and_eq_true_iff.mpr ⟨by simpa using htgt, ?_⟩⟩
    exact (blockingStatus_iff _).mpr hbad

theorem reportKeys_runStage (links : List GraphLink) (ex : String → Bool)
    (report : List (String × NodeStatus)) (stage : List String) :
    reportKeys (runStage links ex report stage) = reportKeys report ++ stage := by
  rw [runStage, reportKeys, List.map_append]
  congr 1
  induction stage with
  | nil => rfl
  | cons a tl ih => simp only [List.map_cons, ih]

/-- Invariant maintained by the engine stage by stage: a `Skipped` entry traces
back to a `Failed` ancestor; an entry none of whose recorded predecessors
failed or was skipped is the executor's own outcome; an entry with such a
predecessor is `Skipped`. -/
def ReportOK (links : List GraphLink) (ex : String → Bool)
    (report : List (String × NodeStatus)) : Prop :=
  ∀ n s, List.lookup n report = some s →
    (s = .skipped →
      ∃ a, Relation.TransGen (edge links) a n ∧ List.lookup a report = some .failed)
    ∧ ((∀ l ∈ links, l.targetNodeId = n →
          ∀ s2, List.lookup l.sourceNodeId report = some s2 →
            s2 ≠ .failed ∧ s2 ≠ .skipped) →
        s = (if ex n then .succeeded else .failed))
    ∧ ((∃ l ∈ links, l.targetNodeId = n
          ∧ ∃ s2, List.lookup l.sourceNodeId report = some s2
            ∧ (s2 = .failed ∨ s2 = .skipped)) →
        s = .skipped)

/-- Every recorded node's predecessors are recorded as well. -/
def TargetsClosed (links : List GraphLink) (report : List (String × NodeStatus)) : Prop :=
  ∀ l ∈ links, l.targetNodeId ∈ reportKeys report → l.sourceNodeId ∈ reportKeys report

theorem runStage_ok (links : List GraphLink) (ex : String → Bool)
    (report : List (String × NodeStatus)) (s : List String)
    (hnd : (reportKeys report ++ s).Nodup)
    (hstage : ∀ n ∈ s, ∀ l ∈ links, l.targetNodeId = n → l.sourceNodeId ∈ reportKeys report)
    (hclosed : TargetsClosed links report)
    (hok : ReportOK links ex report) :
    reportKeys (runStage links ex report s) = reportKeys report ++ s
    ∧ (∀ n st, List.lookup n report = some st →
        List.lookup n (runStage links ex report s) = some st)
    ∧ TargetsClosed links (runStage links ex report s)
    ∧ ReportOK links ex (runStage links ex report s) := by
  have hkeys : reportKeys (runStage links ex report s) = reportKeys report ++ s :=
    reportKeys_runStage links ex report s
  have hdisj : ∀ n ∈ s, n ∉ reportKeys report := by
    intro n hn hmem
    exact (List.nodup_append.mp hnd).2.2 hmem hn
  have hstab : ∀ n st, List.lookup n report = some st →
      List.lookup n (runStage links ex report s) = some st :=
    fun n st h => lookup_append_some _ _ _ _ h
  have hnew : ∀ n ∈ s,
      List.lookup n (runStage links ex report s) = some (execNode links report ex n) := by
    intro n hn
    rw [runStage, lookup_append_none _ _ _ (lookup_none_of_not_mem_keys _ _ (hdisj n hn))]
    exact lookup_map_self s _ n hn
  have hcases : ∀ n st, List.lookup n (runStage links ex report s) = some st →
      List.lookup n report = some st ∨ (n ∈ s ∧ st = execNode links report ex n) := by
    intro n st h
    rcases hold : List.lookup n report with _ | st2
    · right
      rw [runStage, lookup_append_none _ _ _ hold] at h
      have hmem : n ∈ reportKeys (s.map fun m => (m, execNode links report ex m)) :=
        mem_keys_of_lookup _ _ _ h
      have hns : n ∈ s := by
        simpa [reportKeys, List.map_map, Function.comp] using hmem
      have hself := lookup_map_self s (execNode links report ex) n hns
      rw [hself] at h
      exact ⟨hns, (Option.some.inj h).symm⟩
    · left
      exact congrArg some (Option.some.inj ((hstab n st2 hold).symm.trans h))
  refine ⟨hkeys, hstab, ?_, ?_⟩
  · intro l hl htgt
    rw [hkeys] at htgt ⊢
    rcases List.mem_append.mp htgt with holdk | hnewk
    · exact List.mem_append.mpr (Or.inl (hclosed l hl holdk))
    · exact List.mem_append.mpr (Or.inl (hstage _ hnewk l hl rfl))
  · intro n st hlook
    rcases hcases n st hlook with hold | ⟨hns, hexec⟩
    · obtain ⟨c1, c2, c3⟩ := hok n st hold
      refine ⟨?_, ?_, ?_⟩
      · intro hskip
        obtain ⟨a, htc, ha⟩ := c1 hskip
        exact ⟨a, htc, hstab _ _ ha⟩
      · intro hclean
        exact c2 fun l hl htgt s2 hs2 => hclean l hl htgt s2 (hstab _ _ hs2)
      · rintro ⟨l, hl, htgt, s2, hs2, hbad⟩
        have hsrckeys : l.sourceNodeId ∈ reportKeys report :=
          hclosed l hl (by rw [htgt]; exact mem_keys_of_lookup _ _ _ hold)
        obtain ⟨s3, hs3⟩ := exists_lookup_of_mem_keys _ _ hsrckeys
        have he : s3 = s2 := Option.some.inj ((hstab _ _ hs3).symm.trans hs2)
        subst he
        exact c3 ⟨l, hl, htgt, s3, hs3, hbad⟩
    · subst hexec
      refine ⟨?_, ?_, ?_⟩
      · intro hskip
        have hb : depBlocked links report n = true := by
          by_contra hb
          rw [Bool.not_eq_true] at hb
          rw [execNode, hb] at hskip
          cases hexn : ex n <;> rw [hexn] at hskip <;> simp at hskip
        obtain ⟨l, hl, htgt, hluk⟩ := (depBlocked_iff links report n).mp hb
        rcases hluk with hf | hsk
        · exact ⟨l.sourceNodeId, Relation.TransGen.single ⟨l, hl, rfl, htgt⟩, hstab _ _ hf⟩
        · obtain ⟨a, htc, ha⟩ := (hok l.sourceNodeId .skipped hsk).1 rfl
          exact ⟨a, Relation.TransGen.tail htc ⟨l, hl, rfl, htgt⟩, hstab _ _ ha⟩
      · intro hclean
        have hb : depBlocked links report n = false := by
          by_contra hb2
          rw [Bool.not_eq_false] at hb2
          obtain ⟨l, hl, htgt, hluk⟩ := (depBlocked_iff links report n).mp hb2
          rcases hluk with hf | hsk
          · exact (hclean l hl htgt .failed (hstab _ _ hf)).1 rfl
          · exact (hclean l hl htgt .skipped (hstab _ _ hsk)).2 rfl
        rw [execNode, hb]
        simp
      · rintro ⟨l, hl, htgt, s2, hs2, hbad⟩
        have hsrckeys : l.sourceNodeId ∈ reportKeys report := hstage n hns l hl htgt
        obtain ⟨s3, hs3⟩ := exists_lookup_of_mem_keys _ _ hsrckeys
        have he : s3 = s2 := Option.some.inj ((hstab _ _ hs3).symm.trans hs2)
        subst he
        have hb : depBlocked links report n = true := by
          rw [depBlocked_iff]
          refine ⟨l, hl, htgt, ?_⟩
          rcases hbad with hbb | hbb
          · rw [hbb] at hs3
            exact Or.inl hs3
          · rw [hbb] at hs3
            exact Or.inr hs3
        rw [execNode, hb]
        simp

theorem engine_foldl_ok (links : List GraphLink) (ex : String → Bool) :
    ∀ (stages : List (List String)) (report : List (String × NodeStatus)),
      (reportKeys report ++ stages.flatten).Nodup →
      StagesSorted links (reportKeys report) stages →
      TargetsClosed links report →
      ReportOK links ex report →
      reportKeys (stages.foldl (runStage links ex) report)
          = reportKeys report ++ stages.flatten
      ∧ (∀ n st, List.lookup n report = some st →
          List.lookup n (stages.foldl (runStage links ex) report) = some st)
      ∧ TargetsClosed links (stages.foldl (runStage links ex) report)
      ∧ ReportOK links ex (stages.foldl (runStage links ex) report) := by
  intro stages
  induction stages with
  | nil =>
    intro report hnd hsorted hclosed hok
    exact ⟨by simp, fun n st h => h, hclosed, hok⟩
  | cons s rest ih =>
    intro report hnd hsorted hclosed hok
    have hnd0 : ((reportKeys report ++ s) ++ rest.flatten).Nodup := by
      rw [List.append_assoc, ← List.flatten_cons]
      exact hnd
    have hnd1 : (reportKeys report ++ s).Nodup := (List.nodup_append.mp hnd0).1
    obtain ⟨hkeys2, hstab2, hclosed2, hok2⟩ :=
      runStage_ok links ex report s hnd1 hsorted.1 hclosed hok
    have hnd3 : (reportKeys (runStage links ex report s) ++ rest.flatten).Nodup := by
      rw [hkeys2]
      exact hnd0
    have hsorted3 : StagesSorted links (reportKeys (runStage links ex report s)) rest := by
      rw [hkeys2]
      exact hsorted.2
    obtain ⟨k3, s3, c3, o3⟩ := ih (runStage links ex report s) hnd3 hsorted3 hclosed2 hok2
    refine ⟨?_, fun n st h => s3 n st (hstab2 n st h), c3, o3⟩
    rw [List.foldl_cons, k3, hkeys2, List.flatten_cons, List.append_assoc]

theorem resolve_stages_inv (nodes : List String) (links : List GraphLink)
    (st : List (List String)) (hres : resolve nodes links = ResolverResult.stages st) :
    (kahnStages nodes.length nodes links).2 = []
    ∧ st = (kahnStages nodes.length nodes links).1 := by
  by_cases he : (kahnStages nodes.length nodes links).2.isEmpty
  · rw [resolve, if_pos he] at hres
    refine ⟨List.isEmpty_iff.mp he, ?_⟩
    injection hres with h
    exact h.symm
  · rw [resolve, if_neg he] at hres
    cases hres

theorem engine_resolved_ok (nodes : List String) (links : List GraphLink)
    (st : List (List String)) (ex : String → Bool)
    (hnd : nodes.Nodup)
    (hval : ∀ l ∈ links, l.sourceNodeId ∈ nodes ∧ l.targetNodeId ∈ nodes)
    (hres : resolve nodes links = ResolverResult.stages st) :
    List.Perm (reportKeys (runEngine st links ex)) nodes
    ∧ (reportKeys (runEngine st links ex)).Nodup
    ∧ ReportOK links ex (runEngine st links ex) := by
  obtain ⟨hcyc, hst⟩ := resolve_stages_inv nodes links st hres
  have hperm : List.Perm st.flatten nodes := by
    have hp := kahnStages_perm links nodes.length nodes
    rw [hcyc, List.append_nil] at hp
    rw [hst]
    exact hp
  have hfnd : st.flatten.Nodup := hperm.symm.nodup hnd
  have hsorted : StagesSorted links [] st := by
    rw [hst]
    exact kahnStages_sorted links nodes.length nodes [] fun l hl => Or.inl (hval l hl).1
  obtain ⟨hkeys, _, _, hok⟩ := engine_foldl_ok links ex st []
    (by simpa [reportKeys] using hfnd) hsorted
    (by intro l hl hmem; simp [reportKeys] at hmem)
    (by intro n s h; simp [List.lookup] at h)
  have hkeys2 : reportKeys (runEngine st links ex) = st.flatten := by
    rw [runEngine, hkeys]
    simp [reportKeys]
  rw [hkeys2]
  exact ⟨hperm, hfnd, hok⟩

theorem reportOK_dichotomy (links : List GraphLink) (ex : String → Bool)
    (report : List (String × NodeStatus)) (hok : ReportOK links ex report)
    (n : String) (s : NodeStatus) (h : List.lookup n report = some s) :
    s = .skipped ∨ s = (if ex n then NodeStatus.succeeded else NodeStatus.failed) := by
  by_cases hbad : ∃ l ∈ links, l.targetNodeId = n
      ∧ ∃ s2, List.lookup l.sourceNodeId report = some s2 ∧ (s2 = .failed ∨ s2 = .skipped)
  · exact Or.inl ((hok n s h).2.2 hbad)
  · refine Or.inr ((hok n s h).2.1 ?_)
    intro l hl htgt s2 hs2
    exact ⟨fun hf => hbad ⟨l, hl, htgt, s2, hs2, Or.inl hf⟩,
           fun hsk => hbad ⟨l, hl, htgt, s2, hs2, Or.inr hsk⟩⟩

theorem reportOK_failed_ex (links : List GraphLink) (ex : String → Bool)
    (report : List (String × NodeStatus)) (hok : ReportOK links ex report)
    (a : String) (h : List.lookup a report = some NodeStatus.failed) : ex a = false := by
  rcases reportOK_dichotomy links ex report hok a NodeStatus.failed h with hc | hc
  · simp at hc
  · by_contra hex
    rw [Bool.not_eq_false] at hex
    rw [hex] at hc
    simp at hc

/-- C3: with the Execution Engine modelled from the spec (the execution core is
absent from src/), for every resolved plan and every executor behaviour: the
run reaches plan exhaustion with a terminal status recorded for every node
(never aborted by a node failure); a node is recorded `Failed` only when its
own executor invocation failed; every node transitively depending on a
`Failed` node is recorded `Skipped` (in the model a `Skipped` node's executor
is by construction never invoked); and every node with no failing transitive
ancestor is still executed, its status being exactly its executor's outcome. -/
theorem c3_engine_failure_policy (nodes : List String) (links : List GraphLink)
    (st : List (List String)) (ex : String → Bool)
    (hnd : nodes.Nodup)
    (hval : ∀ l ∈ links, l.sourceNodeId ∈ nodes ∧ l.targetNodeId ∈ nodes)
    (hres : resolve nodes links = ResolverResult.stages st) :
    (∀ n ∈ nodes, ∃ s, List.lookup n (runEngine st links ex) = some s
      ∧ (s = NodeStatus.succeeded ∨ s = NodeStatus.failed ∨ s = NodeStatus.skipped))
    ∧ (∀ a, List.lookup a (runEngine st links ex) = some NodeStatus.failed → ex a = false)
    ∧ (∀ a n, List.lookup a (runEngine st links ex) = some NodeStatus.failed →
        Relation.TransGen (edge links) a n →
        List.lookup n (runEngine st links ex) = some NodeStatus.skipped)
    ∧ (∀ n ∈ nodes, (∀ a, Relation.TransGen (edge links) a n → ex a = true) →
        List.lookup n (runEngine st links ex)
          = some (if ex n then NodeStatus.succeeded else NodeStatus.failed)) := by
  obtain ⟨hperm, hknd, hok⟩ := engine_resolved_ok nodes links st ex hnd hval hres
  have hmemkeys : ∀ n ∈ nodes, n ∈ reportKeys (runEngine st links ex) :=
    fun n hn => (hperm.mem_iff).mpr hn
  have hfail_ex : ∀ a, List.lookup a (runEngine st links ex) = some NodeStatus.failed →
      ex a = false := fun a ha => reportOK_failed_ex links ex _ hok a ha
  refine ⟨?_, hfail_ex, ?_, ?_⟩
  · intro n hn
    obtain ⟨s, hs⟩ := exists_lookup_of_mem_keys _ _ (hmemkeys n hn)
    refine ⟨s, hs, ?_⟩
    rcases reportOK_dichotomy links ex _ hok n s hs with hc | hc
    · exact Or.inr (Or.inr hc)
    · cases hexn : ex n
      · rw [hexn] at hc
        simp at hc
        exact Or.inr (Or.inl hc)
      · rw [hexn] at hc
        simp at hc
        exact Or.inl hc
  · intro a n hfail htc
    induction htc with
    | single hrel =>
      rename_i n2
      obtain ⟨l, hl, hsrc, htgt⟩ := hrel
      have hn2 : n2 ∈ nodes := by
        rw [← htgt]
        exact (hval l hl).2
      obtain ⟨s, hs⟩ := exists_lookup_of_mem_keys _ _ (hmemkeys n2 hn2)
      have hskip := (hok n2 s hs).2.2
        ⟨l, hl, htgt, NodeStatus.failed, by rw [hsrc]; exact hfail, Or.inl rfl⟩
      rw [hskip] at hs
      exact hs
    | tail hab hrel ih =>
      rename_i bmid n2
      obtain ⟨l, hl, hsrc, htgt⟩ := hrel
      have hn2 : n2 ∈ nodes := by
        rw [← htgt]
        exact (hval l hl).2
      obtain ⟨s, hs⟩ := exists_lookup_of_mem_keys _ _ (hmemkeys n2 hn2)
      have hskip := (hok n2 s hs).2.2
        ⟨l, hl, htgt, NodeStatus.skipped, by rw [hsrc]; exact ih, Or.inr rfl⟩
      rw [hskip] at hs
      exact hs
  · intro n hn hanc
    obtain ⟨s, hs⟩ := exists_lookup_of_mem_keys _ _ (hmemkeys n hn)
    have hclean : ∀ l ∈ links, l.targetNodeId = n →
        ∀ s2, List.lookup l.sourceNodeId (runEngine st links ex) = some s2 →
          s2 ≠ NodeStatus.failed ∧ s2 ≠ NodeStatus.skipped := by
      intro l hl htgt s2 hs2
      have htcsrc : Relation.TransGen (edge links) l.sourceNodeId n :=
        Relation.TransGen.single ⟨l, hl, rfl, htgt⟩
      constructor
      · intro hf
        have hexf := hfail_ex l.sourceNodeId (by rw [← hf]; exact hs2)
        rw [hanc l.sourceNodeId htcsrc] at hexf
        exact Bool.noConfusion hexf
      · intro hsk
        obtain ⟨a2, htc2, ha2⟩ := (hok l.sourceNodeId s2 hs2).1 hsk
        have hexf := hfail_ex a2 ha2
        rw [hanc a2 (Relation.TransGen.trans htc2 htcsrc)] at hexf
        exact Bool.noConfusion hexf
    have hval2 := (hok n s hs).2.1 hclean
    rw [hval2] at hs
    exact hs

/-- C3 witness: the spec's fan-out example A → B, A → C with A's executor
failing — A is `Failed`, B and C are `Skipped`, and a recorded `Failed` always
means the executor reported failure. -/
theorem c3_witness :
    (∀ a, List.lookup a (runEngine [["A"], ["B", "C"]]
        [(⟨"l1", "A", 0, "B", 0, ""⟩ : GraphLink), (⟨"l2", "A", 0, "C", 0, ""⟩ : GraphLink)]
        (fun n => !(n == "A"))) = some NodeStatus.failed → (fun n => !(n == "A")) a = false)
    ∧ List.lookup "A" (runEngine [["A"], ["B", "C"]]
        [(⟨"l1", "A", 0, "B", 0, ""⟩ : GraphLink), (⟨"l2", "A", 0, "C", 0, ""⟩ : GraphLink)]
        (fun n => !(n == "A"))) = some NodeStatus.failed
    ∧ List.lookup "B" (runEngine [["A"], ["B", "C"]]
        [(⟨"l1", "A", 0, "B", 0, ""⟩ : GraphLink), (⟨"l2", "A", 0, "C", 0, ""⟩ : GraphLink)]
        (fun n => !(n == "A"))) = some NodeStatus.skipped
    ∧ List.lookup "C" (runEngine [["A"], ["B", "C"]]
        [(⟨"l1", "A", 0, "B", 0, ""⟩ : GraphLink), (⟨"l2", "A", 0, "C", 0, ""⟩ : GraphLink)]
        (fun n => !(n == "A"))) = some NodeStatus.skipped :=
  ⟨(c3_engine_failure_policy ["A", "B", "C"]
      [(⟨"l1", "A", 0, "B", 0, ""⟩ : GraphLink), (⟨"l2", "A", 0, "C", 0, ""⟩ : GraphLink)]
      [["A"], ["B", "C"]] (fun n => !(n == "A"))
      (by decide) (by decide) (by decide)).2.1,
   by decide, by decide, by decide⟩

/-- C4: with the Run Report modelled from the spec (the execution core is
absent from src/), for every completed (uncancelled) run of a resolved plan:
`overallStatus` is `Completed` iff every node's terminal status is `Succeeded`;
it is `CompletedWithErrors` iff some node is `Failed` or `Skipped` (the
uncancelled engine always runs to plan exhaustion); and it is `Aborted` only
when the run was cancelled externally. -/
theorem c4_overall_status (nodes : List String) (links : List GraphLink)
    (st : List (List String)) (ex : String → Bool)
    (hnd : nodes.Nodup)
    (hval : ∀ l ∈ links, l.sourceNodeId ∈ nodes ∧ l.targetNodeId ∈ nodes)
    (hres : resolve nodes links = ResolverResult.stages st) :
    (overallStatus false (runEngine st links ex) = OverallStatus.completed
      ↔ ∀ n ∈ nodes, List.lookup n (runEngine st links ex) = some NodeStatus.succeeded)
    ∧ (overallStatus false (runEngine st links ex) = OverallStatus.completedWithErrors
      ↔ ∃ n ∈ nodes, (List.lookup n (runEngine st links ex) = some NodeStatus.failed
          ∨ List.lookup n (runEngine st links ex) = some NodeStatus.skipped))
    ∧ ∀ c : Bool, overallStatus c (runEngine st links ex) = OverallStatus.aborted →
        c = true := by
  obtain ⟨hperm, hknd, hok⟩ := engine_resolved_ok nodes links st ex hnd hval hres
  have hall_iff : (((runEngine st links ex).all fun p => p.2 == NodeStatus.succeeded) = true)
      ↔ ∀ n ∈ nodes, List.lookup n (runEngine st links ex) = some NodeStatus.succeeded := by
    rw [List.all_eq_true]
    constructor
    · intro hall n hn
      obtain ⟨s, hs⟩ := exists_lookup_of_mem_keys _ _ ((hperm.mem_iff).mpr hn)
      have hpair := mem_of_lookup_eq_some _ _ _ hs
      have hss : s = NodeStatus.succeeded := by simpa using hall _ hpair
      rw [hss] at hs
      exact hs
    · intro hlook p hp
      have hkey : p.1 ∈ reportKeys (runEngine st links ex) :=
        List.mem_map_of_mem Prod.fst hp
      have hlk : List.lookup p.1 (runEngine st links ex) = some p.2 :=
        lookup_of_mem_nodup _ _ _ hknd (by rw [Prod.mk.eta]; exact hp)
      have hsucc := hlook p.1 ((hperm.mem_iff).mp hkey)
      rw [hlk] at hsucc
      have hp2 : p.2 = NodeStatus.succeeded := Option.some.inj hsucc
      simp [hp2]
  have hov1 : overallStatus false (runEngine st links ex) = OverallStatus.completed
      ↔ (((runEngine st links ex).all fun p => p.2 == NodeStatus.succeeded) = true) := by
    rw [overallStatus]
    by_cases hall : (((runEngine st links ex).all fun p => p.2 == NodeStatus.succeeded) = true)
    · rw [if_neg (by simp), if_pos hall]
      simp [hall]
    · rw [if_neg (by simp), if_neg hall]
      simp [hall]
  have hov2 : overallStatus false (runEngine st links ex) = OverallStatus.completedWithErrors
      ↔ ¬ (((runEngine st links ex).all fun p => p.2 == NodeStatus.succeeded) = true) := by
    rw [overallStatus]
    by_cases hall : (((runEngine st links ex).all fun p => p.2 == NodeStatus.succeeded) = true)
    · rw [if_neg (by simp), if_pos hall]
      simp [hall]
    · rw [if_neg (by simp), if_neg hall]
      simp [hall]
  refine ⟨hov1.trans hall_iff, ?_, ?_⟩
  · rw [hov2]
    constructor
    · intro hnall
      have hnot : ¬ ∀ p ∈ (runEngine st links ex), (p.2 == NodeStatus.succeeded) = true := by
        rw [← List.all_eq_true]
        exact hnall
      push_neg at hnot
      obtain ⟨p, hp, hps⟩ := hnot
      have hpne : p.2 ≠ NodeStatus.succeeded := by simpa using hps
      have hkey : p.1 ∈ reportKeys (runEngine st links ex) :=
        List.mem_map_of_mem Prod.fst hp
      have hlk : List.lookup p.1 (runEngine st links ex) = some p.2 :=
        lookup_of_mem_nodup _ _ _ hknd (by rw [Prod.mk.eta]; exact hp)
      refine ⟨p.1, (hperm.mem_iff).mp hkey, ?_⟩
      rcases reportOK_dichotomy links ex _ hok p.1 p.2 hlk with hc | hc
      · right
        rw [← hc]
        exact hlk
      · cases hexn : ex p.1
        · rw [hexn] at hc
          simp at hc
          left
          rw [← hc]
          exact hlk
        · rw [hexn] at hc
          simp at hc
          exact absurd hc hpne
    · rintro ⟨n, hn, hbad⟩
      intro hall
      have hsucc := hall_iff.mp hall n hn
      rcases hbad with hb | hb
      · rw [hsucc] at hb
        simp at hb
      · rw [hsucc] at hb
        simp at hb
  · intro c habort
    cases hc : c
    · exfalso
      rw [hc] at habort
      rw [overallStatus, if_neg (by simp)] at habort
      by_cases hall : (((runEngine st links ex).all fun p => p.2 == NodeStatus.succeeded) = true)
      · rw [if_pos hall] at habort
        exact OverallStatus.noConfusion habort
      · rw [if_neg hall] at habort
        exact OverallStatus.noConfusion habort
    · rfl

/-- C4 witness: a single succeeding node yields an uncancelled run whose
overall status is `Completed`, and the `Completed` characterization holds at
that run. -/
theorem c4_witness :
    resolve ["X"] ([] : List GraphLink) = ResolverResult.stages [["X"]]
    ∧ (overallStatus false (runEngine [["X"]] ([] : List GraphLink) (fun _ => true))
          = OverallStatus.completed
        ↔ ∀ n ∈ (["X"] : List String),
            List.lookup n (runEngine [["X"]] ([] : List GraphLink) (fun _ => true))
              = some NodeStatus.succeeded)
    ∧ overallStatus false (runEngine [["X"]] ([] : List GraphLink) (fun _ => true))
        = OverallStatus.completed :=
  ⟨by decide,
   (c4_overall_status ["X"] ([] : List GraphLink) [["X"]] (fun _ => true)
      (by decide) (by decide) (by decide)).1,
   by decide⟩

end Round
